import Mathlib

/-
Verification of the dj-urls-panel core against its specification.

The Python sources are shallowly embedded over `List Char` strings:
pure string/regex helpers become Lean functions, Django's routing tree
becomes an inductive tree (plus an indexed graph for possibly-cyclic
inputs), and the settings / network environment become explicit
parameters.  Hostnames below are the values returned by
`urllib.parse.urlparse(url).hostname`.
-/

abbrev Str := List Char

/-- Python `str.lower` over our character-list strings. -/
def lowerStr (s : Str) : Str := s.map Char.toLower

/-- Python `str.upper`. -/
def upperStr (s : Str) : Str := s.map Char.toUpper

/-
`_is_url_allowed` (src/dj_urls_panel/views.py, lines 14-66).

The default blocklist is a list of regexes matched with `re.match`
(anchored at the start) and `re.IGNORECASE`; since every literal in the
patterns is lower-case, matching with IGNORECASE is the same as matching
the lower-cased hostname.  Each pattern is translated to its meaning:

  r'^localhost$'                      -> equality with "localhost"
  r'^127\.' etc.                      -> literal leading-substring tests
  r'^172\.(1[6-9]|2[0-9]|3[01])\.'    -> `matches172` below, with the
                                         character classes expanded
  r'^::1$'                            -> equality with "::1"
-/

/-- Translation of `re.match(r'^172\.(1[6-9]|2[0-9]|3[01])\.', hl)`:
the first seven characters are `172.` then a two-digit number drawn from
`1[6-9] | 2[0-9] | 3[01]` then `.`. -/
def matches172 (hl : Str) : Bool :=
  match hl with
  | a :: b :: c :: d :: e :: f :: g :: _ =>
      a == '1' && b == '7' && c == '2' && d == '.' && g == '.' &&
        ((e == '1' && (f == '6' || f == '7' || f == '8' || f == '9')) ||
         (e == '2' && (f == '0' || f == '1' || f == '2' || f == '3' || f == '4' ||
                       f == '5' || f == '6' || f == '7' || f == '8' || f == '9')) ||
         (e == '3' && (f == '0' || f == '1')))
  | _ => false

/-- The `blocked_patterns` loop of `_is_url_allowed`: true iff some
pattern of the default blocklist matches the (lower-cased) hostname. -/
def blockedPatternsMatch (h : Str) : Bool :=
  let hl := lowerStr h
  (hl == "localhost".toList) ||
  ("127.".toList.isPrefixOf hl) ||
  ("10.".toList.isPrefixOf hl) ||
  matches172 hl ||
  ("192.168.".toList.isPrefixOf hl) ||
  ("169.254.".toList.isPrefixOf hl) ||
  (hl == "::1".toList) ||
  ("fe80:".toList.isPrefixOf hl) ||
  ("fc00:".toList.isPrefixOf hl)

/-- Outcome of `_is_url_allowed`, keeping the distinct error messages
of the source apart. -/
inductive UrlCheck where
  | allowed
  | invalidNoHost
  | notInAllowedHosts
  | blockedBySecurity
deriving DecidableEq

/-- `_is_url_allowed`, as a function of the configured `ALLOWED_HOSTS`
value (`none` = the setting is absent) and of the parsed hostname
(`none` = `urlparse` produced no hostname; the empty string is falsy in
Python and is likewise rejected). -/
def is_url_allowed (allowedHosts : Option (List Str)) (hostname : Option Str) : UrlCheck :=
  match hostname with
  | none => .invalidNoHost
  | some h =>
      if h = [] then .invalidNoHost
      else
        match allowedHosts with
        | some ah => if h ∈ ah then .allowed else .notInAllowedHosts
        | none => if blockedPatternsMatch h then .blockedBySecurity else .allowed

/-- Spec-side reading of the `172.16.*` through `172.31.*` range: some
numeric second octet between 16 and 31. -/
def ipv4Range172 (hl : Str) : Prop :=
  ∃ n : Nat, 16 ≤ n ∧ n ≤ 31 ∧ ("172.".toList ++ (Nat.repr n).toList ++ ['.']) <+: hl

/-- Spec-side reading of the fixed default denylist, following the
specification text: literal `localhost` (case-insensitive), IPv4
loopback and private ranges, link-local, and the IPv6 equivalents. -/
def denylistSpec (h : Str) : Prop :=
  lowerStr h = "localhost".toList ∨
  "127.".toList <+: lowerStr h ∨
  "10.".toList <+: lowerStr h ∨
  ipv4Range172 (lowerStr h) ∨
  "192.168.".toList <+: lowerStr h ∨
  "169.254.".toList <+: lowerStr h ∨
  lowerStr h = "::1".toList ∨
  "fe80:".toList <+: lowerStr h ∨
  "fc00:".toList <+: lowerStr h

/-
`UrlListInterface._strip_regex_anchors` (src/dj_urls_panel/utils.py,
lines 388-407): `pattern_str.lstrip("^").rstrip("$")`.  Python `lstrip`
removes ALL leading characters from the given set, and `rstrip` all
trailing ones.
-/

/-- `_strip_regex_anchors`: drop every leading `^`, then every trailing
`$`. -/
def _strip_regex_anchors (p : Str) : Str :=
  ((p.dropWhile (· == '^')).reverse.dropWhile (· == '$')).reverse

/-- The claim's reading of stripAnchors: remove at most ONE leading `^`
and at most ONE trailing `$`. -/
def stripAnchorsSingle (p : Str) : Str :=
  let q := match p with
    | '^' :: t => t
    | _ => p
  match q.reverse with
  | '$' :: t => t.reverse
  | _ => q

/-
`extract_url_parameters` (src/dj_urls_panel/utils.py, lines 150-207).

Phase 1 scans with `re.finditer(r'\(\?P<(\w+)>[^)]+\)', pattern)`:
at each position, match "(?P<", a nonempty run of word characters, ">",
a nonempty run of non-`)` characters (greedy, hence up to the FIRST
closing paren), and ")".  Phase 2 scans with
`re.finditer(r'(?<!\?P)<(?:(\w+):)?(\w+)>', pattern)`: a "<" not
immediately preceded by the two characters "?P", an optional word run
followed by ":", a nonempty word run, and ">".  Since word characters
never include `:` or `>`, the backtracking regexes are equivalent to the
deterministic maximal-run scans below.  `finditer` yields
non-overlapping matches left to right, resuming after each match; the
scan is expressed with a fuel counter equal to the scanned length
(`findNamedGroupsFuel_congr` / `findPathParamsFuel_congr` show any
sufficient fuel computes the same list, so the fuel is immaterial).
Both loops share one `seen_names` set, appending a parameter only at the
first occurrence of its name (`dedupParamsFrom`).
-/

/-- Python `\w` on the ASCII range: letters, digits and underscore. -/
def isWordChar (c : Char) : Bool := c.isAlpha || c.isDigit || c == '_'

/-- One attempt of the phase-1 regex at the start of `s`; on success,
returns the group name and the remainder of the string after the
match. -/
def matchNamedGroup : Str → Option (Str × Str)
  | '(' :: '?' :: 'P' :: '<' :: r =>
      let w := r.takeWhile isWordChar
      let r1 := r.dropWhile isWordChar
      if w.isEmpty then none
      else
        match r1 with
        | '>' :: r2 =>
            let body := r2.takeWhile (· != ')')
            let r3 := r2.dropWhile (· != ')')
            if body.isEmpty then none
            else
              match r3 with
              | ')' :: r4 => some (w, r4)
              | _ => none
        | _ => none
  | _ => none

/-- The phase-1 `finditer` loop: collect the names of all `(?P<name>...)`
groups from left to right. -/
def findNamedGroupsFuel : Nat → Str → List Str
  | 0, _ => []
  | _, [] => []
  | fuel + 1, s =>
      match matchNamedGroup s with
      | some (w, rest) => w :: findNamedGroupsFuel fuel rest
      | none => findNamedGroupsFuel fuel s.tail

def findNamedGroups (s : Str) : List Str := findNamedGroupsFuel s.length s

/-- One attempt of the phase-2 regex at the start of a suffix (the
lookbehind is checked by the caller); returns the optional converter,
the parameter name, and the number of characters consumed. -/
def matchPathParam : Str → Option (Option Str × Str × Nat)
  | '<' :: r =>
      let w1 := r.takeWhile isWordChar
      let r1 := r.dropWhile isWordChar
      match r1 with
      | ':' :: r2 =>
          if w1.isEmpty then none
          else
            let w2 := r2.takeWhile isWordChar
            let r3 := r2.dropWhile isWordChar
            match r3 with
            | '>' :: _ => if w2.isEmpty then none
                          else some (some w1, w2, w1.length + w2.length + 3)
            | _ => none
      | '>' :: _ => if w1.isEmpty then none else some (none, w1, w1.length + 2)
      | _ => none
  | _ => none

/-- The phase-2 `finditer` loop over the whole pattern: `i` is the
current start position; a `<` whose two preceding characters are `?P`
fails the negative lookbehind and is skipped. -/
def findPathParamsFuel (s : Str) : Nat → Nat → List (Option Str × Str)
  | 0, _ => []
  | fuel + 1, i =>
      if i < s.length then
        let blocked := decide (2 ≤ i) && ((s.drop (i - 2)).take 2 == "?P".toList)
        match (if blocked then none else matchPathParam (s.drop i)) with
        | some (conv, nm, consumed) =>
            (conv, nm) :: findPathParamsFuel s fuel (i + consumed)
        | none => findPathParamsFuel s fuel (i + 1)
      else []

def findPathParams (s : Str) : List (Option Str × Str) :=
  findPathParamsFuel s (s.length + 1) 0

/-- One entry of the returned parameter list (the `in` and `required`
values are the constants of the source). -/
structure UrlParam where
  name : Str
  ptype : Str
  inLoc : Str
  required : Bool
deriving DecidableEq

/-- The `type_mapping` dict of the source, with unknown converters
passed through unchanged. -/
def type_mapping (t : Str) : Str :=
  if t = "int".toList then "integer".toList
  else if t = "str".toList then "string".toList
  else if t = "slug".toList then "slug".toList
  else if t = "uuid".toList then "UUID".toList
  else if t = "path".toList then "path".toList
  else t

/-- Phase-1 candidates as (name, type) pairs: every regex group is typed
"regex". -/
def regexPairsOf (p : Str) : List (Str × Str) :=
  (findNamedGroups p).map (fun nm => (nm, "regex".toList))

/-- Phase-2 candidates as (name, type) pairs: a missing converter
defaults to `str` before the type mapping (`match.group(1) or 'str'`). -/
def pathPairsOf (p : Str) : List (Str × Str) :=
  (findPathParams p).map (fun pr => (pr.2, type_mapping (pr.1.getD ("str".toList))))

/-- The shared `seen_names` loop of the source: emit a parameter only if
its name is not already seen, then record the name. -/
def dedupParamsFrom (seen : List Str) : List (Str × Str) → List UrlParam
  | [] => []
  | (nm, ty) :: rest =>
      if nm ∈ seen then dedupParamsFrom seen rest
      else { name := nm, ptype := ty, inLoc := "path".toList, required := true }
             :: dedupParamsFrom (nm :: seen) rest

/-- `extract_url_parameters`: the phase-1 loop followed by the phase-2
loop over one shared seen-set. -/
def extract_url_parameters (p : Str) : List UrlParam :=
  dedupParamsFrom [] (regexPairsOf p ++ pathPairsOf p)

/-- Spec-side first-occurrence dedup on bare names. -/
def firstOccFrom (seen : List Str) : List Str → List Str
  | [] => []
  | n :: rest =>
      if n ∈ seen then firstOccFrom seen rest else n :: firstOccFrom (n :: seen) rest

/-- The seen-set after one dedup pass. -/
def seenAfter (seen : List Str) : List (Str × Str) → List Str
  | [] => seen
  | (nm, _) :: rest =>
      if nm ∈ seen then seenAfter seen rest else seenAfter (nm :: seen) rest

/-
`UrlListInterface._extract_patterns` (src/dj_urls_panel/utils.py,
lines 310-386) walks Django's routing tree: a `URLResolver` (an
`include(...)`) contributes a namespace and a pattern fragment and holds
children; a `URLPattern` is a leaf with a pattern fragment and a name.
A namespace or name of `[]` models Python `None`/`""` (both falsy, and
the source tests them with truthiness).  A produced entry's metadata
fields other than pattern/name/namespace (view, serializer_info,
http_methods, url_parameters) come from the separately embedded
`get_view_http_methods` and `extract_url_parameters` and are not
threaded through the walk, since no claim relates them to the tree.
-/

/-- One node of the routing tree as an inductive (hence finite,
acyclic) value. -/
inductive UrlNode where
  | resolver (pat : Str) (ns : Str) (children : List UrlNode)
  | leaf (pat : Str) (nm : Str)

/-- One produced URL dictionary, restricted to the fields the claims
are about. -/
structure RouteEntry where
  pattern : Str
  name : Option Str
  nspace : Option Str
deriving DecidableEq

/-- `_clean_pattern` (utils.py lines 409-423): prepend `/` when
absent. -/
def _clean_pattern (p : Str) : Str :=
  if p.head? = some '/' then p else '/' :: p

/-- `_extract_patterns`: the recursive walk, with the namespace and
prefix accumulation of the source. -/
def _extract_patterns : List UrlNode → Str → Str → List RouteEntry
  | [], _, _ => []
  | UrlNode.resolver rpat rns children :: rest, ns, pre =>
      let newNs := if rns = [] then ns else (if ns = [] then rns else ns ++ ':' :: rns)
      let newPre := pre ++ _strip_regex_anchors rpat
      _extract_patterns children newNs newPre ++ _extract_patterns rest ns pre
  | UrlNode.leaf lpat lname :: rest, ns, pre =>
      { pattern := _clean_pattern (pre ++ _strip_regex_anchors lpat),
        name := if lname = [] then none
                else some (if ns = [] then lname else ns ++ ':' :: lname),
        nspace := if ns = [] then none else some ns } :: _extract_patterns rest ns pre

/-- Spec-side view of the tree: every leaf together with the list of
its ancestor (prefix, namespace) pairs, in pre-order. -/
def leafPaths : List UrlNode → List (List (Str × Str) × Str × Str)
  | [] => []
  | UrlNode.resolver rpat rns children :: rest =>
      (leafPaths children).map (fun pl => ((rpat, rns) :: pl.1, pl.2)) ++ leafPaths rest
  | UrlNode.leaf lpat lname :: rest => ([], lpat, lname) :: leafPaths rest

/-- One step of the source's namespace accumulation: skip a falsy
namespace, else colon-append. -/
def nsStep (ns x : Str) : Str :=
  if x = [] then ns else (if ns = [] then x else ns ++ ':' :: x)

/-- The accumulated namespace along a path. -/
def nsJoin (ns : Str) (l : List Str) : Str := l.foldl nsStep ns

/-- The claim's formula for the entry a leaf produces, given its
ancestor path: pattern = cleanPattern(concatenation of anchor-stripped
ancestor prefixes and anchor-stripped leaf pattern), name = joined
namespaces plus leaf name when both present, else whichever alone. -/
def specEntry (ns pre : Str) (pl : List (Str × Str) × Str × Str) : RouteEntry :=
  let nsF := nsJoin ns (pl.1.map Prod.snd)
  { pattern := _clean_pattern
      (pre ++ (pl.1.map (fun a => _strip_regex_anchors a.1)).flatten
           ++ _strip_regex_anchors pl.2.1),
    name := if pl.2.2 = [] then none
            else some (if nsF = [] then pl.2.2 else nsF ++ ':' :: pl.2.2),
    nspace := if nsF = [] then none else some nsF }

/-- The claim's "colon-joined" namespaces. -/
def colonJoin : List Str → Str
  | [] => []
  | [x] => x
  | x :: xs => x ++ ':' :: colonJoin xs

/-- The same recursion as `_extract_patterns` with an explicit
recursion-depth budget: entering a resolver's children costs one unit,
and `none` means the execution would recurse deeper than the budget.
The source has NO such cap (and no visited set); this function lets
termination of its unbounded recursion be stated as the existence of a
sufficient budget. -/
def extractFuelT : Nat → List UrlNode → Str → Str → Option (List RouteEntry)
  | _, [], _, _ => some []
  | d, UrlNode.resolver rpat rns children :: rest, ns, pre =>
      match d with
      | 0 => none
      | d' + 1 =>
          let newNs := if rns = [] then ns else (if ns = [] then rns else ns ++ ':' :: rns)
          let newPre := pre ++ _strip_regex_anchors rpat
          match extractFuelT d' children newNs newPre with
          | none => none
          | some l1 =>
              match extractFuelT (d' + 1) rest ns pre with
              | none => none
              | some l2 => some (l1 ++ l2)
  | d, UrlNode.leaf lpat lname :: rest, ns, pre =>
      match extractFuelT d rest ns pre with
      | none => none
      | some l =>
          some ({ pattern := _clean_pattern (pre ++ _strip_regex_anchors lpat),
                  name := if lname = [] then none
                          else some (if ns = [] then lname else ns ++ ':' :: lname),
                  nspace := if ns = [] then none else some ns } :: l)

/-- Resolver-nesting depth of a tree. -/
def depthList : List UrlNode → Nat
  | [] => 0
  | UrlNode.resolver _ _ children :: rest => max (depthList children + 1) (depthList rest)
  | UrlNode.leaf _ _ :: rest => depthList rest

/-- For the termination claim the tree cannot be assumed inductive: an
arbitrary adapter can hand `_extract_patterns` a cyclic object graph
(`pattern.url_patterns` eventually containing the resolver itself).  A
graph node carries the same data as `UrlNode`, with children given by
node identities. -/
structure GraphNode where
  isResolver : Bool
  pat : Str
  ns : Str
  nm : Str
  children : List Nat

/-- A routing graph: node identity to node, cycles representable. -/
def UrlGraph := Nat → GraphNode

/-- `_extract_patterns` over a routing graph, again with an explicit
recursion-depth budget. -/
def extractFuelG (g : UrlGraph) : Nat → List Nat → Str → Str → Option (List RouteEntry)
  | _, [], _, _ => some []
  | d, i :: rest, ns, pre =>
      let n := g i
      if n.isResolver then
        match d with
        | 0 => none
        | d' + 1 =>
            let newNs := if n.ns = [] then ns else (if ns = [] then n.ns else ns ++ ':' :: n.ns)
            let newPre := pre ++ _strip_regex_anchors n.pat
            match extractFuelG g d' n.children newNs newPre with
            | none => none
            | some l1 =>
                match extractFuelG g (d' + 1) rest ns pre with
                | none => none
                | some l2 => some (l1 ++ l2)
      else
        match extractFuelG g d rest ns pre with
        | none => none
        | some l =>
            some ({ pattern := _clean_pattern (pre ++ _strip_regex_anchors n.pat),
                    name := if n.nm = [] then none
                            else some (if ns = [] then n.nm else ns ++ ':' :: n.nm),
                    nspace := if ns = [] then none else some ns } :: l)
termination_by d ids => (d, ids.length)

/-- The self-referential routing tree: a resolver whose url_patterns
list contains itself. -/
def cyclicGraph : UrlGraph := fun _ =>
  { isResolver := true, pat := "loop/".toList, ns := [], nm := [], children := [0] }

/-
`UrlListInterface._filter_excluded_urls` (utils.py lines 279-308): if no
exclusion patterns are configured, return the input list unchanged;
otherwise keep the entries whose slash-stripped pattern
(`pattern.lstrip('/')`) matches none of the compiled patterns.  A
compiled regex is modeled extensionally by its anchored `.match`
function `Str → Bool`; the example pattern `^admin/` denotes the
leading-substring test `"admin/".isPrefixOf`.
-/

/-- `_filter_excluded_urls`. -/
def _filter_excluded_urls (excludePatterns : List (Str → Bool))
    (urlPatterns : List RouteEntry) : List RouteEntry :=
  if excludePatterns.isEmpty then urlPatterns
  else urlPatterns.filter
    (fun u => ! excludePatterns.any (fun m => m (u.pattern.dropWhile (· == '/'))))

/-
`UrlListInterface._load_settings` (utils.py lines 253-277): each
`EXCLUDE_URLS` entry is a string (compiled with `re.compile`; an
`re.error` silently skips the entry), an already-compiled pattern
(anything with a `.match` attribute), or something else (silently
ignored).  `re.compile` itself is abstracted as an oracle
`compileRe : Str → Option (Str → Bool)` returning `none` exactly on the
strings whose compilation raises `re.error`.
-/

/-- One configured `EXCLUDE_URLS` entry. -/
inductive ExcludeSetting where
  | strPat (s : Str)
  | compiled (matchFn : Str → Bool)
  | other

/-- `_load_settings`, parameterised by the compile oracle. -/
def _load_settings (compileRe : Str → Option (Str → Bool)) :
    List ExcludeSetting → List (Str → Bool)
  | [] => []
  | ExcludeSetting.strPat s :: rest =>
      match compileRe s with
      | some m => m :: _load_settings compileRe rest
      | none => _load_settings compileRe rest
  | ExcludeSetting.compiled m :: rest => m :: _load_settings compileRe rest
  | ExcludeSetting.other :: rest => _load_settings compileRe rest

/-
`get_view_http_methods` (src/dj_urls_panel/utils.py, lines 74-147).

The callback is modeled by the attributes the source probes:
`view_class` / `cls` (a class-based view: its `http_method_names`
attribute when present, and the set of lower-case HTTP-verb attribute
names it implements, for the `hasattr(view_class, method_lower)`
tests), `actions` (a DRF ViewSet action map: its keys in order; the
source requires it present AND truthy), and the callback's own
`http_method_names`.  The `try/except` of the source cannot raise in
this pure model; everything else follows the branch structure
line by line.
-/

/-- The canonical verb list `methods` of the source. -/
def METHODS : List Str :=
  ["GET".toList, "POST".toList, "PUT".toList, "PATCH".toList,
   "DELETE".toList, "HEAD".toList, "OPTIONS".toList]

/-- The attributes probed on a class-based view. -/
structure ViewClass where
  httpMethodNames : Option (List Str)
  implementedLower : List Str

/-- The attributes probed on a callback. -/
structure CallbackM where
  viewClass : Option ViewClass
  cls : Option ViewClass
  actions : Option (List Str)
  httpMethodNames : Option (List Str)

/-- `sorted(allowed_methods, key=lambda x: methods.index(x))`: a stable
sort by canonical position; for elements drawn from `METHODS` this is
grouping by verb in canonical order. -/
def canonicalSort (l : List Str) : List Str :=
  (METHODS.map (fun m => l.filter (fun x => x == m))).flatten

/-- The DRF-actions branch: upper-case the action keys, keep the
canonical ones, always add HEAD alongside GET and always add OPTIONS,
then sort canonically. -/
def actionsBranch (acts : List Str) : List Str :=
  let allowed := (acts.map upperStr).filter (fun u => decide (u ∈ METHODS))
  let a1 := if "GET".toList ∈ allowed ∧ "HEAD".toList ∉ allowed
            then allowed ++ ["HEAD".toList] else allowed
  let a2 := if "OPTIONS".toList ∉ a1 then a1 ++ ["OPTIONS".toList] else a1
  canonicalSort a2

/-- The two class-based branches: verbs both configured in
`http_method_names` and implemented, else any implemented verbs; `none`
when both lists come out empty and control falls through. -/
def methodsFromViewClass (vc : ViewClass) : Option (List Str) :=
  let configured : Option (List Str) :=
    match vc.httpMethodNames with
    | some cfg =>
        let cfgLower := cfg.map lowerStr
        let allowed := METHODS.filter
          (fun m => decide (lowerStr m ∈ cfgLower) && decide (lowerStr m ∈ vc.implementedLower))
        if allowed.isEmpty then none else some allowed
    | none => none
  match configured with
  | some r => some r
  | none =>
      let fallback := METHODS.filter (fun m => decide (lowerStr m ∈ vc.implementedLower))
      if fallback.isEmpty then none else some fallback

/-- The function-based tail of the source: the callback's own
`http_method_names` filtered to canonical verbs (possibly empty!), else
the `['GET', 'POST']` default. -/
def methodsFromCallbackAttr (cb : CallbackM) : List Str :=
  match cb.httpMethodNames with
  | some l => (l.map upperStr).filter (fun u => decide (u ∈ METHODS))
  | none => ["GET".toList, "POST".toList]

/-- `get_view_http_methods` (`none` = the callback is `None`). -/
def get_view_http_methods : Option CallbackM → List Str
  | none => ["GET".toList]
  | some cb =>
      let vcO := match cb.viewClass with
        | some v => some v
        | none => cb.cls
      let classResult : Option (List Str) :=
        match vcO with
        | none => none
        | some vc =>
            match cb.actions with
            | some acts =>
                if acts.isEmpty then methodsFromViewClass vc
                else some (actionsBranch acts)
            | none => methodsFromViewClass vc
      match classResult with
      | some r => r
      | none => methodsFromCallbackAttr cb

/-- A function-based callback whose `http_method_names` holds no
canonical verb: the source returns the empty list for it. -/
def trickCallback : CallbackM :=
  { viewClass := none, cls := none, actions := none,
    httpMethodNames := some ["trace".toList] }

/-
`execute_request` (src/dj_urls_panel/views.py, lines 190-411), the
SafeRequestProxy.  The view is embedded as a function of the panel
settings, the parsed POST payload (with the url components urlparse
yields), and a network oracle standing for the `requests` library; it
returns the classified response together with the TRACE of outbound
calls made.  The branch order follows the source: the ENABLE_TESTING
gate first (lines 199-209), then JSON body parsing, the empty-url
check, `_is_url_allowed`, the auth/CSRF assembly (whose only network
activity is the optional CSRF-harvest GET, its failure swallowed), and
the single primary call with the transport-failure classification of
lines 402-411.  Header/cookie contents, which no claim inspects, are
not tracked.
-/

structure PanelSettings where
  enableTesting : Bool
  allowedHosts : Option (List Str)

/-- The parsed POST payload (`data.get(...)` with the source's
defaults, the method already upper-cased) plus the caller context the
auth assembly consults; `none` models Python falsy values. -/
structure ExecPayload where
  url : Str
  hostname : Option Str
  origin : Str
  method : Str
  authType : Option Str
  authValue : Option Str
  csrfFromMeta : Option Str
  csrfCookie : Option Str

/-- One outbound HTTP call of the proxy. -/
inductive OutboundCall where
  | csrfFetch (origin : Str)
  | primary (url : Str) (method : Str)
deriving DecidableEq

/-- What the network oracle answers for a call. -/
inductive NetOutcome where
  | ok (status : Nat)
  | timedOut
  | connError
  | reqError
deriving DecidableEq

/-- The classified responses of `execute_request` (status code and
error family). -/
inductive ExecResult where
  | disabled403
  | invalidJson400
  | urlRequired400
  | rejected403 (why : UrlCheck)
  | response (status : Nat)
  | timeout408
  | connError502
  | failed500
deriving DecidableEq

def mutatingMethods : List Str :=
  ["POST".toList, "PUT".toList, "PATCH".toList, "DELETE".toList]

/-- Whether the session / session_cookie auth assembly issues the
CSRF-harvest GET: a mutating verb and no CSRF token available from the
caller's META or cookies (views.py lines 245-290 and 296-333). -/
def needsCsrfFetch (d : ExecPayload) : Bool :=
  (d.authType == some "session".toList
     || (d.authType == some "session_cookie".toList && d.authValue.isSome))
  && decide (d.method ∈ mutatingMethods)
  && !d.csrfFromMeta.isSome && !d.csrfCookie.isSome

/-- `execute_request`. -/
def execute_request (st : PanelSettings) (body : Option ExecPayload)
    (net : OutboundCall → NetOutcome) : ExecResult × List OutboundCall :=
  if st.enableTesting = false then (.disabled403, [])
  else
    match body with
    | none => (.invalidJson400, [])
    | some d =>
        if d.url = [] then (.urlRequired400, [])
        else
          match is_url_allowed st.allowedHosts d.hostname with
          | UrlCheck.allowed =>
              let pre : List OutboundCall :=
                if needsCsrfFetch d then [OutboundCall.csrfFetch d.origin] else []
              let call := OutboundCall.primary d.url d.method
              match net call with
              | NetOutcome.ok status => (.response status, pre ++ [call])
              | NetOutcome.timedOut => (.timeout408, pre ++ [call])
              | NetOutcome.connError => (.connError502, pre ++ [call])
              | NetOutcome.reqError => (.failed500, pre ++ [call])
          | why => (.rejected403 why, [])

theorem matches172_iff (hl : Str) : matches172 hl = true ↔ ipv4Range172 hl := by
  constructor
  · intro hm
    unfold matches172 at hm
    split at hm
    case h_2 => exact absurd hm (by simp)
    rename_i a b c d e f g t
    simp only [Bool.and_eq_true, Bool.or_eq_true, beq_iff_eq,
      and_assoc, or_assoc] at hm
    obtain ⟨rfl, rfl, rfl, rfl, rfl, hef⟩ := hm
    rcases hef with ⟨rfl, hf⟩ | ⟨rfl, hf⟩ | ⟨rfl, hf⟩
    · rcases hf with rfl | rfl | rfl | rfl
      · exact ⟨16, by norm_num, by norm_num, t, rfl⟩
      · exact ⟨17, by norm_num, by norm_num, t, rfl⟩
      · exact ⟨18, by norm_num, by norm_num, t, rfl⟩
      · exact ⟨19, by norm_num, by norm_num, t, rfl⟩
    · rcases hf with rfl | rfl | rfl | rfl | rfl | rfl | rfl | rfl | rfl | rfl
      · exact ⟨20, by norm_num, by norm_num, t, rfl⟩
      · exact ⟨21, by norm_num, by norm_num, t, rfl⟩
      · exact ⟨22, by norm_num, by norm_num, t, rfl⟩
      · exact ⟨23, by norm_num, by norm_num, t, rfl⟩
      · exact ⟨24, by norm_num, by norm_num, t, rfl⟩
      · exact ⟨25, by norm_num, by norm_num, t, rfl⟩
      · exact ⟨26, by norm_num, by norm_num, t, rfl⟩
      · exact ⟨27, by norm_num, by norm_num, t, rfl⟩
      · exact ⟨28, by norm_num, by norm_num, t, rfl⟩
      · exact ⟨29, by norm_num, by norm_num, t, rfl⟩
    · rcases hf with rfl | rfl
      · exact ⟨30, by norm_num, by norm_num, t, rfl⟩
      · exact ⟨31, by norm_num, by norm_num, t, rfl⟩
  · rintro ⟨n, h16, h31, hpfx⟩
    interval_cases n <;> (obtain ⟨t, rfl⟩ := hpfx; rfl)

theorem blockedPatternsMatch_iff (h : Str) :
    blockedPatternsMatch h = true ↔ denylistSpec h := by
  simp only [blockedPatternsMatch, denylistSpec, Bool.or_eq_true, beq_iff_eq,
    List.isPrefixOf_iff_prefix, matches172_iff, or_assoc]

/-- C1: with no allowedHosts configured, `_is_url_allowed` blocks a URL
exactly when its parsed hostname matches the fixed default denylist
(literal localhost case-insensitively, 127.*, 10.*, 172.16.*-172.31.*,
192.168.*, 169.254.*, and the IPv6 ::1 / fe80: / fc00: equivalents) and
allows every hostname outside it; in particular the six listed hosts are
blocked and example.com is allowed. -/
theorem C1_default_denylist :
    (∀ h : Str, h ≠ [] →
      ((is_url_allowed none (some h) = UrlCheck.blockedBySecurity ↔ denylistSpec h) ∧
       (is_url_allowed none (some h) = UrlCheck.allowed ↔ ¬ denylistSpec h))) ∧
    is_url_allowed none (some "localhost".toList) = UrlCheck.blockedBySecurity ∧
    is_url_allowed none (some "127.0.0.1".toList) = UrlCheck.blockedBySecurity ∧
    is_url_allowed none (some "10.0.0.1".toList) = UrlCheck.blockedBySecurity ∧
    is_url_allowed none (some "172.16.0.1".toList) = UrlCheck.blockedBySecurity ∧
    is_url_allowed none (some "192.168.1.1".toList) = UrlCheck.blockedBySecurity ∧
    is_url_allowed none (some "169.254.169.254".toList) = UrlCheck.blockedBySecurity ∧
    is_url_allowed none (some "example.com".toList) = UrlCheck.allowed := by
  refine ⟨?_, by decide, by decide, by decide, by decide, by decide, by decide, by decide⟩
  intro h hne
  rw [show is_url_allowed none (some h)
        = if blockedPatternsMatch h then .blockedBySecurity else .allowed by
      simp [is_url_allowed, hne]]
  by_cases hb : blockedPatternsMatch h = true
  · rw [if_pos hb]
    rw [blockedPatternsMatch_iff] at hb
    simp [hb]
  · rw [if_neg hb]
    rw [blockedPatternsMatch_iff] at hb
    simp [hb]

/-- Witness for C1 at a concrete hostname outside the denylist. -/
theorem C1_default_denylist_witness :
    is_url_allowed none (some "203.0.113.9".toList) = UrlCheck.allowed ↔
      ¬ denylistSpec "203.0.113.9".toList :=
  (C1_default_denylist.1 "203.0.113.9".toList (by decide)).2

/-- C2: when ALLOWED_HOSTS is configured, `_is_url_allowed` accepts a URL
iff its parsed hostname is an exact member of the configured list, the
default denylist being never consulted; other.com is rejected under
allowedHosts = [example.com], and the denylisted hostname localhost is
accepted when it is a member of the list. -/
theorem C2_allowed_hosts :
    (∀ (ah : List Str) (h : Str), h ≠ [] →
      ((is_url_allowed (some ah) (some h) = UrlCheck.allowed ↔ h ∈ ah) ∧
       (is_url_allowed (some ah) (some h) = UrlCheck.notInAllowedHosts ↔ h ∉ ah))) ∧
    is_url_allowed (some ["example.com".toList]) (some "other.com".toList)
      = UrlCheck.notInAllowedHosts ∧
    blockedPatternsMatch "localhost".toList = true ∧
    is_url_allowed (some ["localhost".toList]) (some "localhost".toList)
      = UrlCheck.allowed := by
  refine ⟨?_, by decide, by decide, by decide⟩
  intro ah h hne
  rw [show is_url_allowed (some ah) (some h)
        = if h ∈ ah then .allowed else .notInAllowedHosts by
      simp [is_url_allowed, hne]]
  by_cases hm : h ∈ ah
  · simp [hm]
  · simp [hm]

/-- Witness for C2 at a concrete member hostname. -/
theorem C2_allowed_hosts_witness :
    is_url_allowed (some ["example.com".toList]) (some "example.com".toList)
      = UrlCheck.allowed ↔ "example.com".toList ∈ ["example.com".toList] :=
  (C2_allowed_hosts.1 ["example.com".toList] "example.com".toList (by decide)).1

theorem head?_dropWhileEq (c : Char) (p : Str) :
    (p.dropWhile (· == c)).head? ≠ some c := by
  induction p with
  | nil => simp
  | cons x t ih =>
      by_cases hx : x = c
      · subst hx
        simpa [List.dropWhile_cons] using ih
      · simp [List.dropWhile_cons, hx]

theorem dropWhileEq_decomp (c : Char) (p : Str) :
    ∃ a : Nat, p = List.replicate a c ++ p.dropWhile (· == c) := by
  refine ⟨(p.takeWhile (· == c)).length, ?_⟩
  conv_lhs => rw [← List.takeWhile_append_dropWhile (p := (· == c)) (l := p)]
  congr 1
  rw [List.eq_replicate_iff]
  exact ⟨rfl, fun b hb => by simpa using List.mem_takeWhile_imp hb⟩

/-- C5 counterexample: on a fragment with doubled anchors the source
strips all of them, not a single one. -/
theorem C5_counterexample :
    _strip_regex_anchors "^^users$$".toList = "users".toList ∧
    stripAnchorsSingle "^^users$$".toList = "^users$".toList ∧
    _strip_regex_anchors "^^users$$".toList ≠ stripAnchorsSingle "^^users$$".toList := by
  refine ⟨by decide, by decide, by decide⟩

/-- C5 (amended): `_strip_regex_anchors` removes ALL leading `^` and all
trailing `$` characters and nothing else: the input is the result
sandwiched between some run of carets and some run of dollars, the
result neither starts with `^` nor ends with `$`, and anchors nested
inside a named group are untouched as in the claim's example. -/
theorem C5_strip_anchors :
    (∀ p : Str,
      (∃ a b : Nat,
        p = List.replicate a '^' ++ _strip_regex_anchors p ++ List.replicate b '$') ∧
      (_strip_regex_anchors p).head? ≠ some '^' ∧
      (_strip_regex_anchors p).getLast? ≠ some '$') ∧
    _strip_regex_anchors "^users/(?P<pk>[^/.]+)/$".toList
      = "users/(?P<pk>[^/.]+)/".toList := by
  refine ⟨?_, by decide⟩
  intro p
  obtain ⟨a, ha⟩ := dropWhileEq_decomp '^' p
  obtain ⟨b, hb⟩ := dropWhileEq_decomp '$' (p.dropWhile (· == '^')).reverse
  have hd1 : p.dropWhile (· == '^')
      = _strip_regex_anchors p ++ List.replicate b '$' := by
    have := congrArg List.reverse hb
    rw [List.reverse_reverse, List.reverse_append, List.reverse_replicate] at this
    exact this
  refine ⟨⟨a, b, ?_⟩, ?_, ?_⟩
  · conv_lhs => rw [ha, hd1]
    rw [List.append_assoc]
  · cases hs : _strip_regex_anchors p with
    | nil => simp
    | cons x xs =>
        intro hx
        simp only [List.head?_cons, Option.some.injEq] at hx
        subst hx
        exact head?_dropWhileEq '^' p (by rw [hd1, hs]; rfl)
  · rw [show _strip_regex_anchors p
        = ((p.dropWhile (· == '^')).reverse.dropWhile (· == '$')).reverse from rfl,
      List.getLast?_reverse]
    exact head?_dropWhileEq '$' (p.dropWhile (· == '^')).reverse

theorem matchNamedGroup_length : ∀ {s w rest : Str}, matchNamedGroup s = some (w, rest) → rest.length < s.length := by
  intro s w rest h
  unfold matchNamedGroup at h
  split at h
  · simp only at h
    split at h
    · exact absurd h (by simp)
    · split at h
      · split at h
        · exact absurd h (by simp)
        · split at h
          · rename_i r0 hne1 r1 r2 heqA hne2 r3 r4 heqB
            injection h with h1
            injection h1 with hw hr
            subst hr
            have a1 : ('>' :: r2).length ≤ r0.length := by
              rw [← heqA]; exact (List.dropWhile_sublist _).length_le
            have a2 : (')' :: r4).length ≤ r2.length := by
              rw [← heqB]; exact (List.dropWhile_sublist _).length_le
            simp only [List.length_cons] at a1 a2 ⊢
            omega
          · exact absurd h (by simp)
      · exact absurd h (by simp)
  · exact absurd h (by simp)

theorem findNamedGroupsFuel_congr : ∀ (f1 f2 : Nat) (s : Str), s.length ≤ f1 → s.length ≤ f2 →
    findNamedGroupsFuel f1 s = findNamedGroupsFuel f2 s := by
  intro f1
  induction f1 with
  | zero =>
      intro f2 s h1 h2
      have hs : s = [] := List.eq_nil_of_length_eq_zero (Nat.le_zero.mp h1)
      subst hs
      cases f2 <;> rfl
  | succ f ih =>
      intro f2 s h1 h2
      cases s with
      | nil => cases f2 <;> rfl
      | cons c t =>
          cases f2 with
          | zero => simp at h2
          | succ f2' =>
              simp only [findNamedGroupsFuel]
              cases hm : matchNamedGroup (c :: t) with
              | some pr =>
                  obtain ⟨w, rest⟩ := pr
                  have hlt := matchNamedGroup_length hm
                  simp only [hm]
                  simp only [List.length_cons] at hlt h1 h2
                  rw [ih f2' rest (by omega) (by omega)]
              | none =>
                  simp only [hm, List.tail_cons]
                  simp only [List.length_cons] at h1 h2
                  exact ih f2' t (by omega) (by omega)

theorem matchPathParam_consumed : ∀ {t : Str} {conv nm k},
    matchPathParam t = some (conv, nm, k) → 1 ≤ k := by
  intro t conv nm k h
  unfold matchPathParam at h
  split at h
  · simp only at h
    split at h
    · split at h
      · exact absurd h (by simp)
      · split at h
        · split at h
          · exact absurd h (by simp)
          · injection h with h1
            injection h1 with _ h2
            injection h2 with _ h3
            omega
        · exact absurd h (by simp)
    · split at h
      · exact absurd h (by simp)
      · injection h with h1
        injection h1 with _ h2
        injection h2 with _ h3
        omega
    · exact absurd h (by simp)
  · exact absurd h (by simp)

theorem findPathParamsFuel_congr : ∀ (f1 f2 : Nat) (s : Str) (i : Nat),
    s.length + 1 - i ≤ f1 → s.length + 1 - i ≤ f2 →
    findPathParamsFuel s f1 i = findPathParamsFuel s f2 i := by
  intro f1
  induction f1 with
  | zero =>
      intro f2 s i h1 h2
      have hi : ¬ i < s.length := by omega
      cases f2 with
      | zero => rfl
      | succ f2' => simp only [findPathParamsFuel, hi, if_false]
  | succ f ih =>
      intro f2 s i h1 h2
      by_cases hi : i < s.length
      · cases f2 with
        | zero => exact absurd hi (by omega)
        | succ f2' =>
            simp only [findPathParamsFuel, hi, if_true]
            cases hm : (if (decide (2 ≤ i) && ((s.drop (i - 2)).take 2 == "?P".toList)) = true
                then none else matchPathParam (s.drop i)) with
            | some pr =>
                obtain ⟨conv, nm, k⟩ := pr
                have hk : 1 ≤ k := by
                  by_cases hb : (decide (2 ≤ i) && ((s.drop (i - 2)).take 2 == "?P".toList)) = true
                  · rw [if_pos hb] at hm; exact absurd hm (by simp)
                  · rw [if_neg hb] at hm; exact matchPathParam_consumed hm
                simp only [hm]
                rw [ih f2' s (i + k) (by omega) (by omega)]
            | none =>
                simp only [hm]
                exact ih f2' s (i + 1) (by omega) (by omega)
      · cases f2 with
        | zero => simp only [findPathParamsFuel, hi, if_false]
        | succ f2' => simp only [findPathParamsFuel, hi, if_false]

theorem dedupParamsFrom_map_name : ∀ (prs : List (Str × Str)) (seen : List Str),
    (dedupParamsFrom seen prs).map UrlParam.name = firstOccFrom seen (prs.map Prod.fst) := by
  intro prs
  induction prs with
  | nil => intro seen; rfl
  | cons pr rest ih =>
      intro seen
      obtain ⟨nm, ty⟩ := pr
      by_cases h : nm ∈ seen <;>
        simp [dedupParamsFrom, firstOccFrom, h, ih]

theorem mem_dedupParamsFrom : ∀ (prs : List (Str × Str)) (seen : List Str) (q : UrlParam),
    q ∈ dedupParamsFrom seen prs →
    (q.name, q.ptype) ∈ prs ∧ q.inLoc = "path".toList ∧ q.required = true ∧ q.name ∉ seen := by
  intro prs
  induction prs with
  | nil => intro seen q hq; exact absurd hq (by simp [dedupParamsFrom])
  | cons pr rest ih =>
      intro seen q hq
      obtain ⟨nm, ty⟩ := pr
      by_cases h : nm ∈ seen
      · rw [dedupParamsFrom, if_pos h] at hq
        obtain ⟨h1, h2, h3, h4⟩ := ih seen q hq
        exact ⟨List.mem_cons_of_mem _ h1, h2, h3, h4⟩
      · rw [dedupParamsFrom, if_neg h] at hq
        rcases List.mem_cons.mp hq with h0 | h0
        · subst h0
          exact ⟨by simp, rfl, rfl, h⟩
        · obtain ⟨h1, h2, h3, h4⟩ := ih (nm :: seen) q h0
          refine ⟨List.mem_cons_of_mem _ h1, h2, h3, fun hmem => h4 (List.mem_cons_of_mem _ hmem)⟩

theorem firstOccFrom_nodup : ∀ (l : List Str) (seen : List Str),
    (firstOccFrom seen l).Nodup ∧ ∀ x ∈ firstOccFrom seen l, x ∉ seen := by
  intro l
  induction l with
  | nil => intro seen; exact ⟨List.nodup_nil, by simp [firstOccFrom]⟩
  | cons n rest ih =>
      intro seen
      by_cases h : n ∈ seen
      · rw [firstOccFrom, if_pos h]
        exact ih seen
      · rw [firstOccFrom, if_neg h]
        obtain ⟨ihn, ihm⟩ := ih (n :: seen)
        refine ⟨List.nodup_cons.mpr ⟨fun hmem => ihm n hmem (by simp), ihn⟩, ?_⟩
        intro x hx
        rcases List.mem_cons.mp hx with h0 | h0
        · subst h0; exact h
        · exact fun hmem => ihm x h0 (List.mem_cons_of_mem _ hmem)

theorem mem_seenAfter : ∀ (prs : List (Str × Str)) (seen : List Str) (x : Str),
    x ∈ seenAfter seen prs ↔ x ∈ seen ∨ x ∈ prs.map Prod.fst := by
  intro prs
  induction prs with
  | nil => intro seen x; simp [seenAfter]
  | cons pr rest ih =>
      intro seen x
      obtain ⟨nm, ty⟩ := pr
      by_cases h : nm ∈ seen
      · rw [seenAfter, if_pos h, ih]
        constructor
        · rintro (h0 | h0)
          · exact Or.inl h0
          · exact Or.inr (by simp [h0])
        · rintro (h0 | h0)
          · exact Or.inl h0
          · rcases (by simpa using h0 : x = nm ∨ x ∈ rest.map Prod.fst) with rfl | h1
            · exact Or.inl h
            · exact Or.inr h1
      · rw [seenAfter, if_neg h, ih]
        constructor
        · rintro (h0 | h0)
          · rcases List.mem_cons.mp h0 with rfl | h1
            · exact Or.inr (by simp)
            · exact Or.inl h1
          · exact Or.inr (by simp [h0])
        · rintro (h0 | h0)
          · exact Or.inl (List.mem_cons_of_mem _ h0)
          · rcases (by simpa using h0 : x = nm ∨ x ∈ rest.map Prod.fst) with rfl | h1
            · exact Or.inl (by simp)
            · exact Or.inr h1

theorem dedupParamsFrom_append : ∀ (l1 l2 : List (Str × Str)) (seen : List Str),
    dedupParamsFrom seen (l1 ++ l2)
      = dedupParamsFrom seen l1 ++ dedupParamsFrom (seenAfter seen l1) l2 := by
  intro l1
  induction l1 with
  | nil => intro l2 seen; rfl
  | cons pr rest ih =>
      intro l2 seen
      obtain ⟨nm, ty⟩ := pr
      by_cases h : nm ∈ seen
      · simp only [List.cons_append, dedupParamsFrom, seenAfter, if_pos h]
        exact ih l2 seen
      · simp only [List.cons_append, dedupParamsFrom, seenAfter, if_neg h]
        rw [List.append_eq, ih l2 (nm :: seen)]

theorem dedupParamsFrom_filter : ∀ (l : List (Str × Str)) (S T : List Str),
    (∀ x, x ∈ T → x ∈ S) →
    dedupParamsFrom S l = (dedupParamsFrom T l).filter (fun q => decide (q.name ∉ S)) := by
  intro l
  induction l with
  | nil => intro S T _; rfl
  | cons pr rest ih =>
      intro S T hTS
      obtain ⟨nm, ty⟩ := pr
      by_cases hS : nm ∈ S
      · rw [dedupParamsFrom, if_pos hS]
        by_cases hT : nm ∈ T
        · rw [dedupParamsFrom, if_pos hT]
          exact ih S T hTS
        · rw [dedupParamsFrom, if_neg hT, List.filter_cons, if_neg (by simp [hS])]
          have hsub : ∀ x, x ∈ nm :: T → x ∈ S := by
            intro x hx
            rcases List.mem_cons.mp hx with rfl | hx
            · exact hS
            · exact hTS x hx
          exact ih S (nm :: T) hsub
      · have hT : nm ∉ T := fun hx => hS (hTS nm hx)
        rw [dedupParamsFrom, if_neg hS, dedupParamsFrom, if_neg hT, List.filter_cons,
          if_pos (by simp [hS])]
        congr 1
        rw [ih (nm :: S) (nm :: T) (by
          intro x hx
          rcases List.mem_cons.mp hx with rfl | hx
          · simp
          · exact List.mem_cons_of_mem _ (hTS x hx))]
        apply List.filter_congr
        intro q hq
        have hq4 := (mem_dedupParamsFrom rest (nm :: T) q hq).2.2.2
        have hqn : q.name ≠ nm := fun he => hq4 (by simp [he])
        simp [hqn, List.mem_cons]

/-- C6: `extract_url_parameters` returns the regex-group parameters (all
typed "regex") in source order followed by the bracket-converter
parameters in source order, keeping only the first occurrence of each
name across both phases, with bracket matches preceded by `?P` skipped
by the scanner; on the claim's example it yields exactly comment_id
(regex) then id (integer), and on "?P<int:id>" the lookbehind suppresses
the bracket match entirely. -/
theorem C6_extract_url_parameters :
    (∀ p : Str,
      ((extract_url_parameters p).map UrlParam.name).Nodup ∧
      extract_url_parameters p
        = dedupParamsFrom [] (regexPairsOf p)
          ++ (dedupParamsFrom [] (pathPairsOf p)).filter
               (fun q => decide (q.name ∉ findNamedGroups p)) ∧
      (∀ q ∈ dedupParamsFrom [] (regexPairsOf p), q.ptype = "regex".toList) ∧
      (dedupParamsFrom [] (regexPairsOf p)).map UrlParam.name
        = firstOccFrom [] (findNamedGroups p) ∧
      (dedupParamsFrom [] (pathPairsOf p)).map UrlParam.name
        = firstOccFrom [] ((findPathParams p).map Prod.snd)) ∧
    extract_url_parameters "/api/articles/<int:id>/comments/(?P<comment_id>[0-9]+)/".toList
      = [{ name := "comment_id".toList, ptype := "regex".toList,
           inLoc := "path".toList, required := true },
         { name := "id".toList, ptype := "integer".toList,
           inLoc := "path".toList, required := true }] ∧
    extract_url_parameters "?P<int:id>".toList = [] := by
  refine ⟨?_, by decide, by decide⟩
  intro p
  have hfst : (regexPairsOf p).map Prod.fst = findNamedGroups p := by
    simp [regexPairsOf, List.map_map, Function.comp_def]
  have hfst2 : (pathPairsOf p).map Prod.fst = (findPathParams p).map Prod.snd := by
    simp [pathPairsOf, List.map_map, Function.comp_def]
  refine ⟨?_, ?_, ?_, ?_, ?_⟩
  · rw [extract_url_parameters, dedupParamsFrom_map_name]
    exact (firstOccFrom_nodup _ _).1
  · rw [extract_url_parameters, dedupParamsFrom_append]
    congr 1
    rw [dedupParamsFrom_filter (pathPairsOf p) (seenAfter [] (regexPairsOf p)) []
      (by intro x hx; exact absurd hx (List.not_mem_nil x))]
    apply List.filter_congr
    intro q hq
    have : q.name ∈ seenAfter [] (regexPairsOf p) ↔ q.name ∈ findNamedGroups p := by
      rw [mem_seenAfter, hfst]
      simp
    simp only [decide_eq_decide]
    exact not_congr this
  · intro q hq
    have h1 := (mem_dedupParamsFrom _ _ _ hq).1
    rw [regexPairsOf] at h1
    rcases List.mem_map.mp h1 with ⟨nm, _, heq⟩
    exact (congrArg Prod.snd heq).symm
  · rw [dedupParamsFrom_map_name, hfst]
  · rw [dedupParamsFrom_map_name, hfst2]

/-- Witness for C6's inner membership hypothesis at a concrete group. -/
theorem C6_extract_url_parameters_witness :
    ({ name := "a".toList, ptype := "regex".toList, inLoc := "path".toList,
       required := true } : UrlParam).ptype = "regex".toList :=
  ((C6_extract_url_parameters.1 "(?P<a>x)".toList).2.2.1)
    { name := "a".toList, ptype := "regex".toList, inLoc := "path".toList,
      required := true }
    (by decide)

theorem extract_eq_specEntry : ∀ (ps : List UrlNode) (ns pre : Str),
    _extract_patterns ps ns pre = (leafPaths ps).map (specEntry ns pre)
  | [], ns, pre => by simp [_extract_patterns, leafPaths]
  | UrlNode.resolver rpat rns children :: rest, ns, pre => by
      have h1 := extract_eq_specEntry children (nsStep ns rns) (pre ++ _strip_regex_anchors rpat)
      have h2 := extract_eq_specEntry rest ns pre
      simp only [_extract_patterns, leafPaths, List.map_append, List.map_map]
      rw [show (if rns = [] then ns else (if ns = [] then rns else ns ++ ':' :: rns))
            = nsStep ns rns from rfl, h1, h2]
      congr 1
      apply List.map_congr_left
      intro pl _
      simp only [Function.comp_apply, specEntry, nsJoin, List.map_cons, List.foldl_cons,
        List.flatten_cons, List.append_assoc]
  | UrlNode.leaf lpat lname :: rest, ns, pre => by
      have h2 := extract_eq_specEntry rest ns pre
      simp only [_extract_patterns, leafPaths, List.map_cons, h2]
      congr 1
      simp only [specEntry, nsJoin, List.map_nil, List.foldl_nil, List.flatten_nil,
        List.append_nil, List.nil_append]

theorem colonJoin_glue : ∀ (a b : Str) (L : List Str),
    colonJoin ((a ++ ':' :: b) :: L) = a ++ ':' :: colonJoin (b :: L) := by
  intro a b L
  cases L with
  | nil => rfl
  | cons y L' => simp [colonJoin, List.append_assoc]

theorem nsJoin_ne_eq_colonJoin : ∀ (l : List Str) (ns : Str), ns ≠ [] →
    nsJoin ns l = colonJoin (ns :: l.filter (fun x => decide (x ≠ []))) := by
  intro l
  induction l with
  | nil => intro ns _; rfl
  | cons x rest ih =>
      intro ns hns
      by_cases hx : x = []
      · subst hx
        rw [show nsJoin ns ([] :: rest) = nsJoin (nsStep ns []) rest from rfl]
        rw [show nsStep ns [] = ns from by simp [nsStep]]
        rw [ih ns hns]
        simp [List.filter_cons]
      · rw [show nsJoin ns (x :: rest) = nsJoin (nsStep ns x) rest from rfl]
        rw [show nsStep ns x = ns ++ ':' :: x from by simp [nsStep, hx, hns]]
        rw [ih (ns ++ ':' :: x) (by simp)]
        rw [show (x :: rest).filter (fun y => decide (y ≠ [])) =
              x :: rest.filter (fun y => decide (y ≠ [])) from by simp [List.filter_cons, hx]]
        exact colonJoin_glue ns x (rest.filter (fun y => decide (y ≠ [])))

theorem nsJoin_nil_eq_colonJoin : ∀ (l : List Str),
    nsJoin [] l = colonJoin (l.filter (fun x => decide (x ≠ []))) := by
  intro l
  induction l with
  | nil => rfl
  | cons x rest ih =>
      by_cases hx : x = []
      · subst hx
        rw [show nsJoin [] ([] :: rest) = nsJoin (nsStep [] []) rest from rfl]
        rw [show nsStep [] [] = [] from by simp [nsStep]]
        rw [ih]
        simp [List.filter_cons]
      · rw [show nsJoin [] (x :: rest) = nsJoin (nsStep [] x) rest from rfl]
        rw [show nsStep [] x = x from by simp [nsStep, hx]]
        rw [nsJoin_ne_eq_colonJoin rest x hx]
        congr 1
        simp [List.filter_cons, hx]

/-- C7: for every routing tree, each produced descriptor's pattern is
cleanPattern applied to the concatenation of the anchor-stripped
ancestor prefixes and the anchor-stripped leaf pattern (each stripped
before concatenation), and its name is the colon-joined nonempty
ancestor namespaces plus the leaf name when both are present, else
whichever alone is present, else absent. -/
theorem C7_nested_tree :
    ∀ ps : List UrlNode,
      _extract_patterns ps [] [] = (leafPaths ps).map (fun pl =>
        let nsF := colonJoin ((pl.1.map Prod.snd).filter (fun x => decide (x ≠ [])))
        { pattern := _clean_pattern
            ((pl.1.map (fun a => _strip_regex_anchors a.1)).flatten
              ++ _strip_regex_anchors pl.2.1),
          name := if pl.2.2 = [] then none
                  else some (if nsF = [] then pl.2.2 else nsF ++ ':' :: pl.2.2),
          nspace := if nsF = [] then none else some nsF }) := by
  intro ps
  rw [extract_eq_specEntry]
  apply List.map_congr_left
  intro pl _
  simp only [specEntry, nsJoin_nil_eq_colonJoin, List.nil_append]

theorem extractFuelT_spec : ∀ (ps : List UrlNode) (ns pre : Str) (d : Nat),
    depthList ps ≤ d → extractFuelT d ps ns pre = some (_extract_patterns ps ns pre)
  | [], ns, pre, d, _ => by
      cases d <;> simp [extractFuelT, _extract_patterns]
  | UrlNode.resolver rpat rns children :: rest, ns, pre, d, hd => by
      have hdepth : depthList children + 1 ≤ d ∧ depthList rest ≤ d := by
        rw [depthList] at hd
        omega
      obtain ⟨hc, hr⟩ := hdepth
      obtain ⟨d', rfl⟩ : ∃ d', d = d' + 1 := ⟨d - 1, by omega⟩
      have h1 := extractFuelT_spec children
        (if rns = [] then ns else (if ns = [] then rns else ns ++ ':' :: rns))
        (pre ++ _strip_regex_anchors rpat) d' (by omega)
      have h2 := extractFuelT_spec rest ns pre (d' + 1) hr
      simp only [extractFuelT, _extract_patterns, h1, h2]
  | UrlNode.leaf lpat lname :: rest, ns, pre, d, hd => by
      have hr : depthList rest ≤ d := by rw [depthList] at hd; omega
      have h2 := extractFuelT_spec rest ns pre d hr
      simp only [extractFuelT, _extract_patterns, h2]

/-- C4 (amended): on every finite inductive routing tree the unguarded
recursion of `_extract_patterns` terminates — some recursion-depth
budget suffices and yields its result.  The source has no depth cap or
visited-node set, and `C4_counterexample` shows the recursion does not
terminate on a cyclic routing graph. -/
theorem C4_finite_tree_terminates : ∀ (ps : List UrlNode) (ns pre : Str),
    ∃ d : Nat, extractFuelT d ps ns pre = some (_extract_patterns ps ns pre) :=
  fun ps ns pre => ⟨depthList ps, extractFuelT_spec ps ns pre (depthList ps) le_rfl⟩

theorem cyclicGraph_extract_none : ∀ (d : Nat) (ns pre : Str),
    extractFuelG cyclicGraph d [0] ns pre = none := by
  intro d
  induction d with
  | zero => intro ns pre; simp [extractFuelG, cyclicGraph]
  | succ d' ih =>
      intro ns pre
      simp [extractFuelG, cyclicGraph, ih]

/-- C4 counterexample: on the self-referential routing graph no
recursion-depth budget suffices — the traversal never terminates, so it
is not guarded by any depth cap or visited-node set. -/
theorem C4_counterexample :
    ¬ ∃ (d : Nat) (l : List RouteEntry),
        extractFuelG cyclicGraph d [0] [] [] = some l := by
  rintro ⟨d, l, hd⟩
  rw [cyclicGraph_extract_none d [] []] at hd
  exact Option.noConfusion hd

/-- C8: the exclusion filter strips the leading slashes from each
descriptor's pattern and drops the descriptor iff some denylist pattern
matches; an empty denylist returns the input unchanged, survivors form
a sublist (relative order preserved), and with denylist [^admin/] no
surviving pattern starts with /admin/ while non-matching entries are
kept. -/
theorem C8_exclusion_filter :
    (∀ urls : List RouteEntry, _filter_excluded_urls [] urls = urls) ∧
    (∀ (ex : List (Str → Bool)) (urls : List RouteEntry),
       (_filter_excluded_urls ex urls).Sublist urls) ∧
    (∀ (ex : List (Str → Bool)) (urls : List RouteEntry) (u : RouteEntry),
       u ∈ _filter_excluded_urls ex urls →
       ∀ m ∈ ex, m (u.pattern.dropWhile (· == '/')) = false) ∧
    (∀ (ex : List (Str → Bool)) (urls : List RouteEntry) (u : RouteEntry),
       u ∈ urls → (∀ m ∈ ex, m (u.pattern.dropWhile (· == '/')) = false) →
       u ∈ _filter_excluded_urls ex urls) ∧
    (∀ (urls : List RouteEntry) (u : RouteEntry),
       u ∈ _filter_excluded_urls [fun s => "admin/".toList.isPrefixOf s] urls →
       ¬ ("/admin/".toList <+: u.pattern)) := by
  refine ⟨fun urls => rfl, ?_, ?_, ?_, ?_⟩
  · intro ex urls
    rw [_filter_excluded_urls]
    by_cases he : ex.isEmpty
    · rw [if_pos he]
    · rw [if_neg he]
      exact List.filter_sublist _
  · intro ex urls u hu m hm
    rw [_filter_excluded_urls] at hu
    by_cases he : ex.isEmpty
    · rw [List.isEmpty_iff] at he
      subst he
      exact absurd hm (List.not_mem_nil m)
    · rw [if_neg he] at hu
      have := (List.mem_filter.mp hu).2
      rw [Bool.not_eq_true', List.any_eq_false] at this
      simpa using this m hm
  · intro ex urls u hu hall
    rw [_filter_excluded_urls]
    by_cases he : ex.isEmpty
    · rw [if_pos he]; exact hu
    · rw [if_neg he]
      refine List.mem_filter.mpr ⟨hu, ?_⟩
      rw [Bool.not_eq_true', List.any_eq_false]
      intro m hm
      simpa using hall m hm
  · intro urls u hu hpre
    obtain ⟨t, ht⟩ := hpre
    have hstrip : u.pattern.dropWhile (· == '/') = "admin/".toList ++ t := by
      rw [← ht]
      rfl
    have := (List.mem_filter.mp (by
      rw [_filter_excluded_urls] at hu
      exact hu)).2
    rw [Bool.not_eq_true', List.any_eq_false] at this
    have hfalse := this (fun s => "admin/".toList.isPrefixOf s) (by simp)
    rw [hstrip] at hfalse
    exact hfalse (List.isPrefixOf_iff_prefix.mpr (List.prefix_append _ _))

/-- C10: an EXCLUDE_URLS string entry whose compilation fails is
silently skipped — `_load_settings` is total, the compiled denylist is
the one obtained without the entry, and therefore the entry excludes no
routes from the inventory. -/
theorem C10_invalid_pattern_skipped :
    ∀ (compileRe : Str → Option (Str → Bool)) (pre suf : List ExcludeSetting) (s : Str),
      compileRe s = none →
      (_load_settings compileRe (pre ++ ExcludeSetting.strPat s :: suf)
          = _load_settings compileRe (pre ++ suf)) ∧
      (∀ urls : List RouteEntry,
        _filter_excluded_urls
            (_load_settings compileRe (pre ++ ExcludeSetting.strPat s :: suf)) urls
          = _filter_excluded_urls (_load_settings compileRe (pre ++ suf)) urls) := by
  intro compileRe pre suf s hs
  have hmain : _load_settings compileRe (pre ++ ExcludeSetting.strPat s :: suf)
      = _load_settings compileRe (pre ++ suf) := by
    induction pre with
    | nil => simp [_load_settings, hs]
    | cons e rest ih =>
        cases e with
        | strPat s' =>
            simp only [List.cons_append, _load_settings]
            cases compileRe s' with
            | some m => simp [ih]
            | none => exact ih
        | compiled m => simp only [List.cons_append, _load_settings, List.append_eq, ih]
        | other =>
            simp only [List.cons_append, _load_settings]
            exact ih
  exact ⟨hmain, fun urls => by rw [hmain]⟩

/-- Witness for C8 at a concrete entry and denylist. -/
theorem C8_exclusion_filter_witness :
    ({ pattern := "/ping/".toList, name := none, nspace := none } : RouteEntry)
      ∈ _filter_excluded_urls [fun s => "admin/".toList.isPrefixOf s]
          [{ pattern := "/ping/".toList, name := none, nspace := none }] :=
  C8_exclusion_filter.2.2.2.1 [fun s => "admin/".toList.isPrefixOf s]
    [{ pattern := "/ping/".toList, name := none, nspace := none }]
    { pattern := "/ping/".toList, name := none, nspace := none }
    (by simp)
    (by
      intro m hm
      rcases List.mem_singleton.mp hm with rfl
      decide)

/-- Witness for C10 at a concrete failing compile. -/
theorem C10_invalid_pattern_skipped_witness :
    _load_settings (fun _ => none) [ExcludeSetting.strPat "(".toList]
      = _load_settings (fun _ => none) [] :=
  (C10_invalid_pattern_skipped (fun _ => none) [] [] "(".toList rfl).1

theorem mem_canonicalSort {x : Str} {l : List Str} :
    x ∈ canonicalSort l → x ∈ METHODS := by
  intro hx
  rw [canonicalSort, List.mem_flatten] at hx
  obtain ⟨sub, hsub, hxs⟩ := hx
  rw [List.mem_map] at hsub
  obtain ⟨m, hm, rfl⟩ := hsub
  have := (List.mem_filter.mp hxs).2
  rw [beq_iff_eq] at this
  exact this ▸ hm

theorem canonicalSort_mem_of_mem {x : Str} {l : List Str} :
    x ∈ l → x ∈ METHODS → x ∈ canonicalSort l := by
  intro hx hm
  rw [canonicalSort, List.mem_flatten]
  refine ⟨l.filter (fun y => y == x), List.mem_map.mpr ⟨x, hm, rfl⟩, ?_⟩
  exact List.mem_filter.mpr ⟨hx, by simp⟩

theorem actionsBranch_props (acts : List Str) :
    actionsBranch acts ≠ [] ∧ ∀ m ∈ actionsBranch acts, m ∈ METHODS := by
  have key : ∀ l : List Str,
      "OPTIONS".toList ∈ (if "OPTIONS".toList ∉ l then l ++ ["OPTIONS".toList] else l) := by
    intro l
    split
    · simp
    · rename_i h
      exact not_not.mp h
  constructor
  · have hmem : "OPTIONS".toList ∈ actionsBranch acts := by
      rw [actionsBranch]
      exact canonicalSort_mem_of_mem (key _) (by simp [METHODS])
    exact List.ne_nil_of_mem hmem
  · intro m hm
    rw [actionsBranch] at hm
    exact mem_canonicalSort hm

theorem methodsFromViewClass_props {vc : ViewClass} {r : List Str} :
    methodsFromViewClass vc = some r → r ≠ [] ∧ ∀ m ∈ r, m ∈ METHODS := by
  intro h
  simp only [methodsFromViewClass] at h
  split at h
  · rename_i hr heq
    split at heq
    · rename_i cfg hcfg
      split at heq
      · exact absurd heq (by simp)
      · rename_i hne
        injection heq with heq
        subst heq
        injection h with h
        subst h
        refine ⟨by simpa [List.isEmpty_iff] using hne, ?_⟩
        intro m hm
        exact (List.mem_filter.mp hm).1
    · exact absurd heq (by simp)
  · split at h
    · exact absurd h (by simp)
    · rename_i hne
      injection h with h
      subst h
      refine ⟨by simpa [List.isEmpty_iff] using hne, ?_⟩
      intro m hm
      exact (List.mem_filter.mp hm).1

theorem methodsFromCallbackAttr_props (cb : CallbackM) :
    (∀ m ∈ methodsFromCallbackAttr cb, m ∈ METHODS) ∧
    (methodsFromCallbackAttr cb = [] →
      ∃ l, cb.httpMethodNames = some l ∧ ∀ k ∈ l, upperStr k ∉ METHODS) := by
  rw [methodsFromCallbackAttr]
  split
  · rename_i l hl
    constructor
    · intro m hm
      have := (List.mem_filter.mp hm).2
      simpa using this
    · intro hnil
      refine ⟨l, hl, ?_⟩
      intro k hk
      rw [List.filter_eq_nil_iff] at hnil
      have := hnil (upperStr k) (List.mem_map.mpr ⟨k, hk, rfl⟩)
      simpa using this
  · constructor
    · intro m hm
      rcases List.mem_cons.mp hm with rfl | hm
      · simp [METHODS]
      · rcases List.mem_cons.mp hm with rfl | hm
        · simp [METHODS]
        · exact absurd hm (List.not_mem_nil m)
    · intro h
      exact absurd h (by simp)

/-- C9 counterexample: a callback carrying `http_method_names` with no
canonical verb makes `get_view_http_methods` return the empty list,
refuting "never empty for every callback input". -/
theorem C9_counterexample :
    get_view_http_methods (some trickCallback) = [] := by decide

/-- C9 (amended): `get_view_http_methods` always returns canonical
upper-case verbs and is non-empty for every callback input EXCEPT when
introspection falls through to a callback whose own `http_method_names`
list contains no canonical verb, in which case the empty list is
returned. -/
theorem C9_http_methods :
    ∀ cbO : Option CallbackM,
      (∀ m ∈ get_view_http_methods cbO, m ∈ METHODS) ∧
      (get_view_http_methods cbO = [] →
        ∃ cb l, cbO = some cb ∧ cb.httpMethodNames = some l ∧
          ∀ k ∈ l, upperStr k ∉ METHODS) := by
  intro cbO
  cases cbO with
  | none =>
      constructor
      · intro m hm
        simp only [get_view_http_methods] at hm
        rcases List.mem_cons.mp hm with rfl | hm
        · simp [METHODS]
        · exact absurd hm (List.not_mem_nil m)
      · intro h
        simp [get_view_http_methods] at h
  | some cb =>
      have hattr := methodsFromCallbackAttr_props cb
      have fallb : get_view_http_methods (some cb) = methodsFromCallbackAttr cb →
          (∀ m ∈ get_view_http_methods (some cb), m ∈ METHODS) ∧
          (get_view_http_methods (some cb) = [] →
            ∃ cb' l, (some cb : Option CallbackM) = some cb' ∧
              cb'.httpMethodNames = some l ∧ ∀ k ∈ l, upperStr k ∉ METHODS) := by
        intro he
        rw [he]
        refine ⟨hattr.1, ?_⟩
        intro h
        obtain ⟨l, hl, hbad⟩ := hattr.2 h
        exact ⟨cb, l, rfl, hl, hbad⟩
      have fromR : ∀ r : List Str, r ≠ [] → (∀ m ∈ r, m ∈ METHODS) →
          get_view_http_methods (some cb) = r →
          (∀ m ∈ get_view_http_methods (some cb), m ∈ METHODS) ∧
          (get_view_http_methods (some cb) = [] →
            ∃ cb' l, (some cb : Option CallbackM) = some cb' ∧
              cb'.httpMethodNames = some l ∧ ∀ k ∈ l, upperStr k ∉ METHODS) := by
        intro r hne hsub he
        rw [he]
        exact ⟨hsub, fun h => absurd h hne⟩
      cases hvc : (match cb.viewClass with
          | some v => some v
          | none => cb.cls) with
      | none =>
          exact fallb (by simp only [get_view_http_methods, hvc])
      | some vc =>
          cases hact : cb.actions with
          | some acts =>
              by_cases hae : acts.isEmpty = true
              · cases hmv : methodsFromViewClass vc with
                | some r =>
                    obtain ⟨hne, hsub⟩ := methodsFromViewClass_props hmv
                    exact fromR r hne hsub
                      (by simp only [get_view_http_methods, hvc, hact, hae, if_true, hmv])
                | none =>
                    exact fallb
                      (by simp only [get_view_http_methods, hvc, hact, hae, if_true, hmv])
              · obtain ⟨hne, hsub⟩ := actionsBranch_props acts
                exact fromR (actionsBranch acts) hne hsub
                  (by simp [get_view_http_methods, hvc, hact, hae])
          | none =>
              cases hmv : methodsFromViewClass vc with
              | some r =>
                  obtain ⟨hne, hsub⟩ := methodsFromViewClass_props hmv
                  exact fromR r hne hsub
                    (by simp only [get_view_http_methods, hvc, hact, hmv])
              | none =>
                  exact fallb (by simp only [get_view_http_methods, hvc, hact, hmv])

/-- Witness for C9's amended theorem at the concrete empty-result
callback. -/
theorem C9_http_methods_witness :
    ∃ cb l, (some trickCallback : Option CallbackM) = some cb ∧
      cb.httpMethodNames = some l ∧ ∀ k ∈ l, upperStr k ∉ METHODS :=
  (C9_http_methods (some trickCallback)).2 (by decide)

/-- C3: with ENABLE_TESTING false, `execute_request` returns the
Disabled 403 for EVERY input — any payload (valid or not), any network
behaviour — with an empty outbound trace, so no URL validation, auth
assembly or network call is reached; by contrast, when enabled and the
URL passes validation the primary outbound call is made. -/
theorem C3_disabled_gate :
    (∀ (st : PanelSettings) (body : Option ExecPayload)
        (net : OutboundCall → NetOutcome),
      st.enableTesting = false →
      execute_request st body net = (ExecResult.disabled403, [])) ∧
    (∀ (st : PanelSettings) (d : ExecPayload) (net : OutboundCall → NetOutcome),
      st.enableTesting = true → d.url ≠ [] →
      is_url_allowed st.allowedHosts d.hostname = UrlCheck.allowed →
      OutboundCall.primary d.url d.method ∈ (execute_request st (some d) net).2) := by
  constructor
  · intro st body net h
    simp [execute_request, h]
  · intro st d net hen hurl hallow
    rw [execute_request]
    rw [if_neg (by rw [hen]; simp)]
    simp only [hallow]
    rw [if_neg hurl]
    cases net (OutboundCall.primary d.url d.method) <;> simp

/-- Witness for C3 at a disabled policy with an otherwise-valid
allowed-host payload and a succeeding network. -/
theorem C3_disabled_gate_witness :
    execute_request
      { enableTesting := false, allowedHosts := some ["example.com".toList] }
      (some { url := "http://example.com/api/".toList,
              hostname := some "example.com".toList,
              origin := "http://example.com".toList,
              method := "GET".toList, authType := none, authValue := none,
              csrfFromMeta := none, csrfCookie := none })
      (fun _ => NetOutcome.ok 200)
      = (ExecResult.disabled403, []) :=
  C3_disabled_gate.1
    { enableTesting := false, allowedHosts := some ["example.com".toList] }
    (some { url := "http://example.com/api/".toList,
            hostname := some "example.com".toList,
            origin := "http://example.com".toList,
            method := "GET".toList, authType := none, authValue := none,
            csrfFromMeta := none, csrfCookie := none })
    (fun _ => NetOutcome.ok 200) rfl
